import Mathlib

/-!
Verification development for the JeVois DNN pipeline (jevois::dnn).

The repository snapshot provides the headers `Pipeline.H`, `PostProcessor.H`,
`Utils.H` and the `Network` component header. Where only a declaration and its
documentation are present, the behaviour is modelled from the specification
(`spec.md`); such definitions carry a doc comment starting with
`Modelled from the spec:`.

Machine floats are modelled by exact rationals (ℚ) where only ordering and
arithmetic matter, and by real numbers (ℝ) for the softmax, which uses the
exponential function.
-/

namespace jevois
namespace dnn

/-! ## Pipeline processing mode (src/include/jevois/DNN/Pipeline.H) -/

/-- The pipeline `processing` parameter values (Pipeline.H, enum `Processing`). -/
inductive Processing where
  | Sync
  | Async
deriving DecidableEq

/-- Default value of the `processing` parameter as declared in Pipeline.H
(`JEVOIS_DECLARE_PARAMETER(processing, ..., Processing::Async, ...)`). -/
def processing_default : Processing := Processing.Async

/-- The two per-frame execution paths of Pipeline::process. -/
inductive ExecPath where
  | sequential
  | background
deriving DecidableEq

/-- Modelled from the spec: per-frame execution follows the synchronous
sequential path when `processing` is Sync, and the asynchronous path (network
run in a background task, previous frame's results reported) when it is Async.
The body of Pipeline::process is not in the repository snapshot. -/
def execPath : Processing → ExecPath
  | Processing.Sync => ExecPath.sequential
  | Processing.Async => ExecPath.background

/-! ## clamp (declared in src/include/jevois/DNN/Utils.H) -/

/-- A rectangle in the style of cv::Rect: corner (x, y), width w, height h. -/
structure Rect where
  x : Int
  y : Int
  w : Int
  h : Int
deriving DecidableEq

/-- Modelled from the spec: `clamp(rect, W, H)` produces the intersection of
the rectangle with `[0,W)×[0,H)`, collapsing to a zero-area rectangle when
they are disjoint. Declared in Utils.H; the implementation file is not in the
repository snapshot. -/
def clamp (r : Rect) (width height : Int) : Rect :=
  { x := max 0 (min r.x width)
    y := max 0 (min r.y height)
    w := max 0 (min (r.x + r.w) width - max 0 (min r.x width))
    h := max 0 (min (r.y + r.h) height - max 0 (min r.y height)) }

/-! ## Network load lifecycle (src/unnamed/part_000, class Network) -/

/-- The two atomic readiness flags of class Network
(`itsLoading`, `itsLoaded`, both initialized to false in part_000). -/
structure NetState where
  itsLoading : Bool
  itsLoaded : Bool
deriving DecidableEq

/-- Initial state of a Network instance: `itsLoading = false`,
`itsLoaded = false` (member initializers in part_000). -/
def initNet : NetState := { itsLoading := false, itsLoaded := false }

/-- Operations of the load lifecycle: starting a background load, and polling
readiness (the poll observes whether the background load future has
completed). -/
inductive NetOp where
  | startLoad
  | readyPoll (loadDone : Bool)

/-- Modelled from the spec: `load()` is started in the background the first
time the pipeline transitions to a new pipe; the `loading`/`loaded` flags
implement a single-producer/single-consumer readiness signal, and `ready()`
reports loaded, moving the state from loading to loaded when the background
load has completed. The member function bodies are not in the repository
snapshot. -/
def netStep : NetOp → NetState → NetState
  | NetOp.startLoad, s =>
      if s.itsLoading || s.itsLoaded then s else { itsLoading := true, itsLoaded := false }
  | NetOp.readyPoll loadDone, s =>
      if s.itsLoading && loadDone then { itsLoading := false, itsLoaded := true } else s

/-- Run a sequence of load-lifecycle operations from the initial state. -/
def runNet (ops : List NetOp) : NetState := ops.foldl (fun s op => netStep op s) initNet

/-- `Network::ready()` returns true when the network is loaded and initialized. -/
def ready (s : NetState) : Bool := s.itsLoaded

/-! ## Asynchronous per-frame execution (src/include/jevois/DNN/Pipeline.H) -/

/-- The async-mode bookkeeping of the pipeline: `itsNetFut` is the single
stored future (here holding the launch index of the inference it will yield),
`launched` counts inferences launched so far, and `consumed` lists the launch
indices whose results have been moved out, in consumption order. -/
structure AsyncState where
  itsNetFut : Option Nat
  launched : Nat
  consumed : List Nat
deriving DecidableEq

/-- Initial async state: no future stored, nothing launched or consumed. -/
def initAsync : AsyncState := { itsNetFut := none, launched := 0, consumed := [] }

/-- Modelled from the spec: one frame of asynchronous execution. If no
inference is in flight, launch one and stash its future. If one is in flight,
poll it (`done` tells whether the future has completed): on completion move
its outputs out (consume) and launch the next inference; otherwise leave the
state unchanged and report only the previous results. The body of
Pipeline::process and checkAsyncNetComplete are not in the repository
snapshot. -/
def stepAsync (done : Bool) (s : AsyncState) : AsyncState :=
  match s.itsNetFut with
  | none => { s with itsNetFut := some s.launched, launched := s.launched + 1 }
  | some id =>
      if done then
        { itsNetFut := some s.launched, launched := s.launched + 1,
          consumed := s.consumed ++ [id] }
      else s

/-- Run a sequence of async frames (one completion flag per frame) from the
initial state. -/
def runAsync (dones : List Bool) : AsyncState :=
  dones.foldl (fun s d => stepAsync d s) initAsync

/-- Number of inferences currently in flight: 1 when a future is stored. -/
def inflight (s : AsyncState) : Nat :=
  match s.itsNetFut with
  | none => 0
  | some _ => 1

/-- The async accounting invariant: results are consumed exactly once in
launch order (the consumed indices are an initial segment 0,1,2,... of the
launch indices), the stored future is the next launch to be consumed, and
every launched inference is either consumed or the single one in flight. -/
def AsyncInv (s : AsyncState) : Prop :=
  s.consumed = List.range s.consumed.length ∧
  s.launched = s.consumed.length + inflight s ∧
  ∀ id, s.itsNetFut = some id → id = s.consumed.length

/-! ## Pipeline::process error boundary (src/include/jevois/DNN/Pipeline.H) -/

/-- The error-boundary state of the pipeline: the sticky `itsPipeThrew` flag
(Pipeline.H) and the log of error messages emitted so far. -/
structure ErrState where
  itsPipeThrew : Bool
  log : List String
deriving DecidableEq

/-- What one call to Pipeline::process renders: normal results, or the error
overlay. -/
inductive FrameOutput where
  | results (r : Nat)
  | errorOverlay
deriving DecidableEq

/-- Modelled from the spec: one call to Pipeline::process. The stage work for
the frame either succeeds with results or throws an exception carrying a
message; the exception is caught at the boundary. While `itsPipeThrew` is set
the pipeline does not attempt further processing and renders the error
overlay; the first exception is logged and sets the sticky flag. The body of
Pipeline::process is not in the repository snapshot. -/
def processFrame (stage : Except String Nat) (s : ErrState) : ErrState × FrameOutput :=
  if s.itsPipeThrew then (s, FrameOutput.errorOverlay)
  else
    match stage with
    | Except.ok r => (s, FrameOutput.results r)
    | Except.error m => ({ itsPipeThrew := true, log := s.log ++ [m] }, FrameOutput.errorOverlay)

/-- Run Pipeline::process over a sequence of frames, collecting the outputs. -/
def runFrames : List (Except String Nat) → ErrState → ErrState × List FrameOutput
  | [], s => (s, [])
  | f :: fs, s =>
      ((runFrames fs (processFrame f s).1).1,
       (processFrame f s).2 :: (runFrames fs (processFrame f s).1).2)

/-- Modelled from the spec: a parameter change clears the error state. -/
def clearError (s : ErrState) : ErrState := { s with itsPipeThrew := false }

/-- The first exception message among a sequence of frames, if any. -/
def firstError (frames : List (Except String Nat)) : Option String :=
  frames.findSome? fun f =>
    match f with
    | Except.error m => some m
    | Except.ok _ => none

/-! ## Tensor specification parsing (declared in src/include/jevois/DNN/Utils.H) -/

/-- Parse a decimal numeral such as "0.017" or "-114" into an exact rational:
an optional leading minus sign, digits, and an optional single decimal point
followed by digits. -/
def parseDec (s : String) : Option ℚ :=
  let neg := s.startsWith "-"
  let t := if neg then s.drop 1 else s
  match t.splitOn "." with
  | [ip] => ip.toNat?.map (fun n => if neg then -(n : ℚ) else (n : ℚ))
  | [ip, fp] =>
      match ip.toNat?, fp.toNat? with
      | some i, some f =>
          let v : ℚ := (i : ℚ) + (f : ℚ) / ((10 : ℚ) ^ fp.length)
          some (if neg then -v else v)
      | _, _ => none
  | _ => none

/-- Tensor layout field of a tensor spec (informational; does not reorder
data). -/
inductive Layout where
  | NCHW
  | NHWC
  | NA
deriving DecidableEq

/-- Element types of the cross-runtime tensor descriptor. -/
inductive Dtype where
  | u8
  | i8
  | u16
  | i16
  | u32
  | i32
  | f16
  | f32
deriving DecidableEq

/-- Quantization descriptor variant: none, dynamic-fixed-point (fractional
length), or affine-asymmetric (scale, zero point). -/
inductive Quant where
  | qnone
  | dfp (fl : Nat)
  | aa (scale : ℚ) (zeroPoint : Int)
deriving DecidableEq

/-- The cross-runtime descriptor of one tensor (the role vsi_nn_tensor_attr_t
plays in the headers: layout, element type, dimensions, quantization). -/
structure TensorAttr where
  layout : Layout
  dtype : Dtype
  dims : List Nat
  quant : Quant
deriving DecidableEq

/-- Error raised by the tensor spec parser (Utils.H documents that
parseTensorSpecs throws on any parsing error). -/
inductive SpecError where
  | MalformedSpec
deriving DecidableEq

/-- Layout field codes. -/
def parseLayout : String → Option Layout
  | "NCHW" => some Layout.NCHW
  | "NHWC" => some Layout.NHWC
  | "NA" => some Layout.NA
  | _ => none

/-- Element type short codes (8U→u8, 8S→i8, 16F→f16, 32F→f32, 32S→i32, ...). -/
def parseDtype : String → Option Dtype
  | "8U" => some Dtype.u8
  | "8S" => some Dtype.i8
  | "16U" => some Dtype.u16
  | "16S" => some Dtype.i16
  | "32U" => some Dtype.u32
  | "32S" => some Dtype.i32
  | "16F" => some Dtype.f16
  | "32F" => some Dtype.f32
  | _ => none

/-- Only integer element types may carry quantization metadata. -/
def isIntType : Dtype → Bool
  | Dtype.f16 => false
  | Dtype.f32 => false
  | _ => true

/-- mapM specialized to Option, mirroring sequential parsing of a list of
descriptors: fails when any element fails. -/
def optMapM {α β : Type _} (g : α → Option β) : List α → Option (List β)
  | [] => some []
  | a :: as =>
      match g a, optMapM g as with
      | some b, some bs => some (b :: bs)
      | _, _ => none

/-- The shape field `DxDxD...`: at least one dimension, each a numeral. -/
def parseDims (s : String) : Option (List Nat) := optMapM String.toNat? (s.splitOn "x")

/-- Modelled from the spec: the optional quantization fields of a descriptor:
absent means none; `DFP` carries one fractional-length numeral; `AA` carries
a scale and a zero point; quantization requires an integer element type. -/
def parseQuant (ty : Dtype) (q : List String) : Option Quant :=
  match q with
  | [] => some Quant.qnone
  | [tag, a] =>
      if tag = "DFP" then
        if isIntType ty then (String.toNat? a).map Quant.dfp else none
      else none
  | [tag, a, b] =>
      if tag = "AA" then
        if isIntType ty then
          match parseDec a, String.toInt? b with
          | some sc, some zp => some (Quant.aa sc zp)
          | _, _ => none
        else none
      else none
  | _ => none

/-- Modelled from the spec: parse the colon-separated fields of one tensor
descriptor, in fixed order layout : type : shape, then the optional
quantization fields. -/
def parseFields : List String → Option TensorAttr
  | l :: t :: s :: q =>
      match parseLayout l, parseDtype t, parseDims s with
      | some lay, some ty, some dims =>
          (parseQuant ty q).map (fun qu =>
            { layout := lay, dtype := ty, dims := dims, quant := qu })
      | _, _, _ => none
  | _ => none

/-- Does `g` fail on a field that is present? -/
def optFail {α : Type _} (g : String → Option α) : Option String → Bool
  | some s => (g s).isNone
  | none => false

/-- The spec's failure clauses for the quantization fields, as a flat
disjunction: an unrecognized quant tag, a DFP variant without exactly its one
numeric fractional-length field, an AA variant without exactly its scale and
zero-point numeric fields, or any quant variant attached to a non-integer
element type. -/
def quantBad (ty : Dtype) (q : List String) : Bool :=
  (!q.isEmpty && !(q.head? == some "DFP" || q.head? == some "AA"))
  || (q.head? == some "DFP" && (decide (q.length ≠ 2) || optFail String.toNat? q[1]?))
  || (q.head? == some "AA" &&
      (decide (q.length ≠ 3) || optFail parseDec q[1]? || optFail String.toInt? q[2]?))
  || (!q.isEmpty && !isIntType ty)

/-- The spec's failure clauses for one descriptor, as a flat disjunction over
its colon-separated fields: a required field is absent, the layout or type
field is unrecognized, the dimensions do not parse, or the quantization
fields are bad (see quantBad). -/
def fieldsBad (f : List String) : Bool :=
  decide (f.length < 3)
  || optFail parseLayout f[0]?
  || optFail parseDtype f[1]?
  || optFail parseDims f[2]?
  || (match f[1]? with
      | some t =>
          match parseDtype t with
          | some ty => quantBad ty (f.drop 3)
          | none => false
      | none => false)

/-- Modelled from the spec: parse one comma-separated tensor descriptor (a
colon-separated sequence of fields). The implementation of parseTensorSpecs
is not in the repository snapshot; Utils.H declares it and documents that it
throws on any parsing error. -/
def parseDescriptor (d : String) : Option TensorAttr := parseFields (d.splitOn ":")

/-- The spec's failure condition for one descriptor string: some field is
unrecognized, a dimension does not parse, a quant variant lacks its required
numeric fields, or a quant variant is attached to an incompatible element
type. -/
def descrBad (d : String) : Bool := fieldsBad (d.splitOn ":")

/-- The comma-separated descriptors of a spec string, with surrounding
whitespace trimmed. -/
def descriptors (specs : String) : List String := (specs.splitOn ",").map String.trim

/-- Modelled from the spec: parseTensorSpecs. Empty input yields an empty
list; otherwise each comma-separated descriptor is parsed, and any failure
raises MalformedSpec. -/
def parseTensorSpecs (specs : String) : Except SpecError (List TensorAttr) :=
  if specs = "" then Except.ok []
  else
    match optMapM parseDescriptor (descriptors specs) with
    | some attrs => Except.ok attrs
    | none => Except.error SpecError.MalformedSpec

/-! ## topK (declared in src/include/jevois/DNN/Utils.H) -/

/-- Ordering used by topK on indexed scores: higher score first, ties broken
by ascending index. -/
def scoreIdxOrd (a b : Nat × ℚ) : Prop := b.2 < a.2 ∨ (a.2 = b.2 ∧ a.1 ≤ b.1)

instance : DecidableRel scoreIdxOrd := fun a b =>
  inferInstanceAs (Decidable (b.2 < a.2 ∨ (a.2 = b.2 ∧ a.1 ≤ b.1)))

instance : IsTotal (Nat × ℚ) scoreIdxOrd := ⟨by
  intro a b
  rcases lt_trichotomy a.2 b.2 with h | h | h
  · exact Or.inr (Or.inl h)
  · rcases Nat.le_total a.1 b.1 with hi | hi
    · exact Or.inl (Or.inr ⟨h, hi⟩)
    · exact Or.inr (Or.inr ⟨h.symm, hi⟩)
  · exact Or.inl (Or.inl h)⟩

instance : IsTrans (Nat × ℚ) scoreIdxOrd := ⟨by
  intro a b c hab hbc
  rcases hab with h1 | ⟨h1, h1i⟩ <;> rcases hbc with h2 | ⟨h2, h2i⟩
  · exact Or.inl (h2.trans h1)
  · exact Or.inl (h2 ▸ h1)
  · exact Or.inl (h1 ▸ h2)
  · exact Or.inr ⟨h1.trans h2, h1i.trans h2i⟩⟩

/-- Modelled from the spec: the indexed score entries sorted by descending
score, ties broken by ascending index (a stable sort of the indexed
entries). -/
def sortTop (prob : List ℚ) : List (Nat × ℚ) := List.insertionSort scoreIdxOrd prob.enum

/-- Modelled from the spec: topK returns the topNum top-scoring entries and
their indices, in descending score order, ties broken by ascending index.
Declared in Utils.H; the implementation file is not in the repository
snapshot. -/
def topK (prob : List ℚ) (k : Nat) : List (Nat × ℚ) := (sortTop prob).take k

/-! ## Raw-YOLO anchors (src/include/jevois/DNN/PostProcessor.H) -/

/-- Error raised by the raw-YOLO decoder when the anchor groups cannot be
assigned to the raw output layers. -/
inductive YoloError where
  | AnchorMismatch
deriving DecidableEq

/-- Modelled from the spec: the semicolon-separated `anchors` parameter
(PostProcessor.H) parsed into groups, one per raw-YOLO output layer; within a
group, anchor entries are comma-separated numbers. -/
def anchorGroups (anchors : String) : List (List ℚ) :=
  (anchors.splitOn ";").map (fun g => (g.splitOn ",").filterMap (fun e => parseDec e.trim))

/-- Modelled from the spec: assignment of anchor groups to raw output layers.
If exactly one group is supplied it is shared across all layers; otherwise
the number of groups must equal the number of raw output layers, else
AnchorMismatch. The decoder implementation is not in the repository
snapshot. -/
def assignAnchors (groups : List (List ℚ)) (nLayers : Nat) :
    Except YoloError (List (List ℚ)) :=
  match groups with
  | [g] => Except.ok (List.replicate nLayers g)
  | _ =>
      if groups.length = nLayers then Except.ok groups
      else Except.error YoloError.AnchorMismatch

/-! ## Non-maximum suppression (src/include/jevois/DNN/PostProcessor.H) -/

/-- A detection box: corners (x1, y1) and (x2, y2). -/
structure Box where
  x1 : ℚ
  y1 : ℚ
  x2 : ℚ
  y2 : ℚ
deriving DecidableEq

/-- Area of a box (zero when degenerate). -/
def area (b : Box) : ℚ := max 0 (b.x2 - b.x1) * max 0 (b.y2 - b.y1)

/-- Area of the intersection of two boxes. -/
def interArea (a b : Box) : ℚ :=
  max 0 (min a.x2 b.x2 - max a.x1 b.x1) * max 0 (min a.y2 b.y2 - max a.y1 b.y1)

/-- Intersection-over-union of two boxes. -/
def iou (a b : Box) : ℚ := interArea a b / (area a + area b - interArea a b)

/-- One detection: class id, score, bounding box. -/
structure Detection where
  classId : Int
  score : ℚ
  box : Box
deriving DecidableEq

/-- An accepted detection suppresses a later one exactly when they are of the
same class and their IoU exceeds the threshold. -/
def suppresses (thr : ℚ) (kept d : Detection) : Bool :=
  decide (kept.classId = d.classId ∧ thr < iou kept.box d.box)

/-- Sorting relation for NMS: descending score. The sort is stable, so equal
scores keep their input order: lower input index wins. -/
def byScore (a b : Detection) : Prop := b.score ≤ a.score

instance : DecidableRel byScore := fun a b => inferInstanceAs (Decidable (b.score ≤ a.score))

instance : IsTotal Detection byScore := ⟨fun a b => le_total b.score a.score⟩

instance : IsTrans Detection byScore := ⟨fun _ _ _ h1 h2 => le_trans h2 h1⟩

/-- Greedy pass of NMS over the sorted detections: `acc` holds the accepted
detections so far; a detection is kept exactly when no accepted detection of
the same class overlaps it beyond the threshold. -/
def nmsRun (thr : ℚ) (acc : List Detection) : List Detection → List Detection
  | [] => []
  | d :: ds =>
      if acc.any (fun e => suppresses thr e d) then nmsRun thr acc ds
      else d :: nmsRun thr (d :: acc) ds

/-- Modelled from the spec: per-class greedy non-maximum suppression at IoU
threshold nms/100: sort by descending score (ties broken by lower input
index, via the stable sort), iterate, suppressing any later detection whose
IoU with an accepted detection of the same class exceeds the threshold.
PostProcessor.H declares the `nms` parameter in percent; the decoder
implementation is not in the repository snapshot. -/
def nms (nmsParam : ℚ) (dets : List Detection) : List Detection :=
  nmsRun (nmsParam / 100) [] (List.insertionSort byScore dets)

/-! ## softmax (declared in src/include/jevois/DNN/Utils.H) -/

/-- Maximum of a list of reals (0 for the empty list). -/
def listMax : List ℝ → ℝ
  | [] => 0
  | x :: xs => xs.foldl max x

/-- The exponentials of the max-shifted inputs, scaled by the temperature. -/
noncomputable def expShift (fac : ℝ) (input : List ℝ) : List ℝ :=
  input.map (fun x => Real.exp (fac * (x - listMax input)))

/-- Modelled from the spec: numerically stable softmax with temperature fac:
subtract the maximum before exponentiating, then normalize by the sum.
Declared in Utils.H; the implementation file is not in the repository
snapshot. The machine's floats are modelled by exact reals. -/
noncomputable def softmax (fac : ℝ) (input : List ℝ) : List ℝ :=
  (expShift fac input).map (fun e => e / (expShift fac input).sum)

end dnn
end jevois

namespace jevois
namespace dnn

/-! ## Theorems -/

theorem netStep_preserves (op : NetOp) (s : NetState)
    (h : (s.itsLoading && s.itsLoaded) = false) :
    ((netStep op s).itsLoading && (netStep op s).itsLoaded) = false := by
  cases op with
  | startLoad =>
      simp only [netStep]
      split
      · exact h
      · rfl
  | readyPoll done =>
      simp only [netStep]
      split
      · rfl
      · exact h

theorem runNet_exclusive (ops : List NetOp) :
    ((runNet ops).itsLoading && (runNet ops).itsLoaded) = false := by
  have general : ∀ (l : List NetOp) (s : NetState), (s.itsLoading && s.itsLoaded) = false →
      ((l.foldl (fun s op => netStep op s) s).itsLoading &&
       (l.foldl (fun s op => netStep op s) s).itsLoaded) = false := by
    intro l
    induction l with
    | nil => intro s h; exact h
    | cons op rest ih =>
        intro s h
        exact ih (netStep op s) (netStep_preserves op s h)
  exact general ops initNet rfl

/-- C4: for every reachable state of a Network instance the readiness flags
are mutually exclusive (loading implies not loaded and loaded implies not
loading), and every load-lifecycle operation (starting a background load,
completing it via a poll that observes completion, querying ready) preserves
this invariant; ready reports exactly the loaded flag. -/
theorem network_flags_mutually_exclusive (ops : List NetOp) (op : NetOp) :
    ((runNet ops).itsLoading = true → (runNet ops).itsLoaded = false) ∧
    ((runNet ops).itsLoaded = true → (runNet ops).itsLoading = false) ∧
    ((netStep op (runNet ops)).itsLoading = true → (netStep op (runNet ops)).itsLoaded = false) ∧
    ready (runNet ops) = (runNet ops).itsLoaded := by
  have h := runNet_exclusive ops
  have h2 := netStep_preserves op (runNet ops) h
  refine ⟨?_, ?_, ?_, rfl⟩
  · intro hl
    cases hld : (runNet ops).itsLoaded
    · rfl
    · rw [hl, hld] at h; exact absurd h (by simp)
  · intro hld
    cases hl : (runNet ops).itsLoading
    · rfl
    · rw [hl, hld] at h; exact absurd h (by simp)
  · intro hl
    cases hld : (netStep op (runNet ops)).itsLoaded
    · rfl
    · rw [hl, hld] at h2; exact absurd h2 (by simp)

/-- C8: clamp is idempotent: clamping an already clamped rectangle changes
nothing, for every rectangle and every image width and height. -/
theorem clamp_idempotent (r : Rect) (width height : Int) :
    clamp (clamp r width height) width height = clamp r width height := by
  simp only [clamp, Rect.mk.injEq]
  refine ⟨?_, ?_, ?_, ?_⟩ <;> omega

/-- C10: a newly constructed Pipeline defaults its processing-mode parameter
to Async, so per-frame execution follows the asynchronous path rather than
the synchronous sequential path. -/
theorem processing_defaults_to_async :
    processing_default = Processing.Async ∧
    execPath processing_default = ExecPath.background :=
  ⟨rfl, rfl⟩

theorem stepAsync_preserves (done : Bool) (s : AsyncState) (h : AsyncInv s) :
    AsyncInv (stepAsync done s) := by
  obtain ⟨hrange, hcount, hfut⟩ := h
  cases hf : s.itsNetFut with
  | none =>
      have hinf : inflight s = 0 := by simp [inflight, hf]
      rw [hinf] at hcount
      have hstep : stepAsync done s =
          { s with itsNetFut := some s.launched, launched := s.launched + 1 } := by
        simp [stepAsync, hf]
      rw [hstep]
      refine ⟨hrange, ?_, ?_⟩
      · simp [inflight]
        omega
      · intro id hid
        simp only [Option.some.injEq] at hid
        show id = s.consumed.length
        omega
  | some cur =>
      have hcur : cur = s.consumed.length := hfut cur hf
      have hinf : inflight s = 1 := by simp [inflight, hf]
      rw [hinf] at hcount
      cases done with
      | false =>
          have hstep : stepAsync false s = s := by simp [stepAsync, hf]
          rw [hstep]
          exact ⟨hrange, by rw [hcount, hinf], hfut⟩
      | true =>
          have hstep : stepAsync true s =
              { itsNetFut := some s.launched, launched := s.launched + 1,
                consumed := s.consumed ++ [cur] } := by
            simp [stepAsync, hf]
          rw [hstep]
          refine ⟨?_, ?_, ?_⟩
          · simp only [List.length_append, List.length_cons, List.length_nil, Nat.zero_add]
            rw [hcur, List.range_succ, ← hrange]
          · simp only [inflight, List.length_append, List.length_cons, List.length_nil]
            omega
          · intro id hid
            simp only [Option.some.injEq] at hid
            simp only [List.length_append, List.length_cons, List.length_nil]
            omega

theorem runAsync_inv (dones : List Bool) : AsyncInv (runAsync dones) := by
  have general : ∀ (l : List Bool) (s : AsyncState), AsyncInv s →
      AsyncInv (l.foldl (fun s d => stepAsync d s) s) := by
    intro l
    induction l with
    | nil => intro s h; exact h
    | cons d rest ih => intro s h; exact ih (stepAsync d s) (stepAsync_preserves d s h)
  refine general dones initAsync ⟨rfl, rfl, ?_⟩
  intro id hid
  simp [initAsync] at hid

/-- C1: in asynchronous per-frame execution, for every sequence of frames, at
most one inference is in flight at any moment, results are consumed exactly
once in launch order (the consumed launch indices are exactly 0,1,2,... in
order), and every launched inference is either already consumed or the single
one whose future is stored. -/
theorem async_at_most_one_inflight (dones : List Bool) :
    inflight (runAsync dones) ≤ 1 ∧
    (runAsync dones).consumed = List.range (runAsync dones).consumed.length ∧
    (runAsync dones).launched =
      (runAsync dones).consumed.length + inflight (runAsync dones) := by
  obtain ⟨hrange, hcount, _⟩ := runAsync_inv dones
  refine ⟨?_, hrange, hcount⟩
  cases hf : (runAsync dones).itsNetFut <;> simp [inflight, hf]

theorem runFrames_length (frames : List (Except String Nat)) (s : ErrState) :
    (runFrames frames s).2.length = frames.length := by
  induction frames generalizing s with
  | nil => rfl
  | cons f fs ih => simp [runFrames, ih]

theorem runFrames_threw (frames : List (Except String Nat)) (s : ErrState) :
    (runFrames frames s).1.itsPipeThrew =
      (s.itsPipeThrew || (firstError frames).isSome) := by
  induction frames generalizing s with
  | nil => simp [runFrames, firstError]
  | cons f fs ih =>
      cases ht : s.itsPipeThrew with
      | true =>
          simp only [runFrames, processFrame, ht, if_pos, Bool.true_or]
          rw [ih]
          simp [ht]
      | false =>
          cases f with
          | ok r =>
              simp only [runFrames, processFrame, ht, Bool.false_eq_true, if_neg,
                not_false_eq_true]
              rw [ih]
              simp [ht, firstError, List.findSome?]
          | error m =>
              simp only [runFrames, processFrame, ht, Bool.false_eq_true, if_neg,
                not_false_eq_true]
              rw [ih]
              simp [firstError, List.findSome?]

theorem runFrames_log (frames : List (Except String Nat)) (s : ErrState) :
    (runFrames frames s).1.log =
      s.log ++ (if s.itsPipeThrew then [] else (firstError frames).toList) := by
  induction frames generalizing s with
  | nil => cases s.itsPipeThrew <;> simp [runFrames, firstError]
  | cons f fs ih =>
      cases ht : s.itsPipeThrew with
      | true =>
          simp only [runFrames, processFrame, ht, if_pos]
          rw [ih]
          simp [ht]
      | false =>
          cases f with
          | ok r =>
              simp only [runFrames, processFrame, ht, Bool.false_eq_true, if_neg,
                not_false_eq_true]
              rw [ih]
              simp [ht, firstError, List.findSome?]
          | error m =>
              simp only [runFrames, processFrame, ht, Bool.false_eq_true, if_neg,
                not_false_eq_true]
              rw [ih]
              simp [firstError, List.findSome?]

theorem runFrames_all_overlay (frames : List (Except String Nat)) (l : List String) :
    (runFrames frames { itsPipeThrew := true, log := l }).2 =
      frames.map (fun _ => FrameOutput.errorOverlay) := by
  induction frames with
  | nil => rfl
  | cons f fs ih => simp [runFrames, processFrame, ih]

/-- C2: Pipeline::process never propagates an exception: every frame yields
an output (one per frame), the first exception is logged exactly once and the
sticky itsPipeThrew flag prevents re-logging on subsequent frames (with the
flag set, the state no longer changes and every frame renders the error
overlay), and a parameter change (clearError) clears the error state so the
next exception is logged again. -/
theorem process_never_throws (frames : List (Except String Nat)) (s : ErrState)
    (l : List String) :
    (runFrames frames s).2.length = frames.length ∧
    (runFrames frames s).1.log =
      s.log ++ (if s.itsPipeThrew then [] else (firstError frames).toList) ∧
    (runFrames frames s).1.itsPipeThrew = (s.itsPipeThrew || (firstError frames).isSome) ∧
    (runFrames frames { itsPipeThrew := true, log := l }).2 =
      frames.map (fun _ => FrameOutput.errorOverlay) ∧
    (runFrames frames (clearError s)).1.itsPipeThrew = (firstError frames).isSome :=
  ⟨runFrames_length frames s, runFrames_log frames s, runFrames_threw frames s,
   runFrames_all_overlay frames l, by rw [runFrames_threw]; simp [clearError]⟩

theorem parseQuant_isNone (ty : Dtype) (q : List String) :
    (parseQuant ty q).isNone = quantBad ty q := by
  match q with
  | [] => simp [parseQuant, quantBad]
  | [tag] =>
      by_cases h1 : tag = "DFP"
      · subst h1; simp [parseQuant, quantBad]
      · by_cases h2 : tag = "AA"
        · subst h2; simp [parseQuant, quantBad]
        · simp [parseQuant, quantBad, h1, h2]
  | [tag, a] =>
      by_cases h1 : tag = "DFP"
      · subst h1
        cases hty : isIntType ty with
        | true =>
            cases hn : String.toNat? a <;>
              simp [parseQuant, quantBad, optFail, hty, hn]
        | false => simp [parseQuant, quantBad, hty]
      · by_cases h2 : tag = "AA"
        · subst h2; simp [parseQuant, quantBad, h1]
        · simp [parseQuant, quantBad, h1, h2]
  | [tag, a, b] =>
      by_cases h2 : tag = "AA"
      · subst h2
        cases hty : isIntType ty with
        | true =>
            cases hda : parseDec a <;> cases hdb : String.toInt? b <;>
              simp [parseQuant, quantBad, optFail, hty, hda, hdb]
        | false => simp [parseQuant, quantBad, hty]
      · by_cases h1 : tag = "DFP"
        · subst h1; simp [parseQuant, quantBad, h2]
        · simp [parseQuant, quantBad, h1, h2]
  | t1 :: t2 :: t3 :: t4 :: rest =>
      by_cases h1 : t1 = "DFP"
      · subst h1; simp [parseQuant, quantBad]
      · by_cases h2 : t1 = "AA"
        · subst h2; simp [parseQuant, quantBad]
        · simp [parseQuant, quantBad, h1, h2]

theorem parseFields_isNone (f : List String) :
    (parseFields f).isNone = fieldsBad f := by
  match f with
  | [] => simp [parseFields, fieldsBad]
  | [a] => simp [parseFields, fieldsBad]
  | [a, b] => simp [parseFields, fieldsBad]
  | l :: t :: s :: q =>
      cases hl : parseLayout l with
      | none => simp [parseFields, fieldsBad, optFail, hl]
      | some lay =>
          cases ht : parseDtype t with
          | none => simp [parseFields, fieldsBad, optFail, hl, ht]
          | some ty =>
              cases hd : parseDims s with
              | none => simp [parseFields, fieldsBad, optFail, hl, ht, hd]
              | some dims =>
                  simp [parseFields, fieldsBad, optFail, hl, ht, hd, parseQuant_isNone]

theorem parseDescriptor_none_iff (d : String) :
    parseDescriptor d = none ↔ descrBad d = true := by
  rw [← Option.isNone_iff_eq_none, parseDescriptor, descrBad, parseFields_isNone]

theorem optMapM_eq_none {α β : Type _} (g : α → Option β) (l : List α) :
    optMapM g l = none ↔ ∃ a ∈ l, g a = none := by
  induction l with
  | nil => simp [optMapM]
  | cons a as ih =>
      cases ha : g a with
      | none => simp [optMapM, ha]
      | some b =>
          cases hm : optMapM g as with
          | none =>
              obtain ⟨x, hx, hgx⟩ := ih.mp hm
              simp only [optMapM, ha, hm, List.mem_cons]
              exact ⟨fun _ => ⟨x, Or.inr hx, hgx⟩, fun _ => trivial⟩
          | some bs =>
              simp only [optMapM, ha, hm, List.mem_cons]
              constructor
              · intro hc; exact absurd hc (by simp)
              · rintro ⟨x, hx | hx, hgx⟩
                · subst hx; rw [ha] at hgx; exact absurd hgx (by simp)
                · have hc := ih.mpr ⟨x, hx, hgx⟩
                  rw [hm] at hc
                  exact absurd hc (by simp)

theorem optMapM_length {α β : Type _} (g : α → Option β) (l : List α)
    (bs : List β) (h : optMapM g l = some bs) : bs.length = l.length := by
  induction l generalizing bs with
  | nil => simp [optMapM] at h; simp [← h]
  | cons a as ih =>
      cases ha : g a with
      | none => simp [optMapM, ha] at h
      | some b =>
          cases hm : optMapM g as with
          | none => simp [optMapM, ha, hm] at h
          | some bs' =>
              simp only [optMapM, ha, hm, Option.some.injEq] at h
              rw [← h]
              simp [ih bs' hm]

/-- C3: parseTensorSpecs applied to the empty string returns the empty list
of tensor attributes; on nonempty input it raises MalformedSpec exactly when
some comma-separated descriptor violates one of the spec's failure clauses
(a field unrecognized, dimensions that do not parse, a quant variant lacking
its required numeric fields, or a quant variant on an incompatible element
type); on success it returns one attribute per comma-separated descriptor. -/
theorem parseTensorSpecs_spec (specs : String) (attrs : List TensorAttr) :
    parseTensorSpecs "" = Except.ok [] ∧
    (specs ≠ "" →
      (parseTensorSpecs specs = Except.error SpecError.MalformedSpec ↔
        ∃ d ∈ descriptors specs, descrBad d = true)) ∧
    (specs ≠ "" → parseTensorSpecs specs = Except.ok attrs →
      attrs.length = (descriptors specs).length) := by
  refine ⟨rfl, ?_, ?_⟩
  · intro hne
    rw [parseTensorSpecs, if_neg hne]
    cases hm : optMapM parseDescriptor (descriptors specs) with
    | none =>
        simp only [iff_true_intro rfl, true_iff]
        obtain ⟨d, hd, hnone⟩ := (optMapM_eq_none parseDescriptor (descriptors specs)).mp hm
        exact ⟨d, hd, (parseDescriptor_none_iff d).mp hnone⟩
    | some res =>
        constructor
        · intro hc; exact absurd hc (by simp)
        · rintro ⟨d, hd, hbad⟩
          have : parseDescriptor d = none := (parseDescriptor_none_iff d).mpr hbad
          exact absurd ((optMapM_eq_none parseDescriptor (descriptors specs)).mpr
            ⟨d, hd, this⟩) (by simp [hm])
  · intro hne hok
    rw [parseTensorSpecs, if_neg hne] at hok
    cases hm : optMapM parseDescriptor (descriptors specs) with
    | none => rw [hm] at hok; exact absurd hok (by simp)
    | some res =>
        rw [hm] at hok
        simp only [Except.ok.injEq] at hok
        rw [← hok]
        exact optMapM_length parseDescriptor (descriptors specs) res hm

theorem assignAnchors_error_iff (groups : List (List ℚ)) (n : Nat) :
    assignAnchors groups n = Except.error YoloError.AnchorMismatch ↔
      (groups.length ≠ 1 ∧ groups.length ≠ n) := by
  match groups with
  | [g'] => simp [assignAnchors]
  | [] =>
      by_cases hn : ([] : List (List ℚ)).length = n
      · rw [show assignAnchors ([] : List (List ℚ)) n =
            (if ([] : List (List ℚ)).length = n then Except.ok ([] : List (List ℚ))
             else Except.error YoloError.AnchorMismatch) from rfl, if_pos hn]
        constructor
        · intro hc; exact absurd hc (by simp)
        · rintro ⟨h1, h2⟩; exact absurd hn h2
      · rw [show assignAnchors ([] : List (List ℚ)) n =
            (if ([] : List (List ℚ)).length = n then Except.ok ([] : List (List ℚ))
             else Except.error YoloError.AnchorMismatch) from rfl, if_neg hn]
        exact ⟨fun _ => ⟨by simp, hn⟩, fun _ => rfl⟩
  | a :: b :: rest =>
      by_cases hn : (a :: b :: rest).length = n
      · rw [show assignAnchors (a :: b :: rest) n =
            (if (a :: b :: rest).length = n then Except.ok (a :: b :: rest)
             else Except.error YoloError.AnchorMismatch) from rfl, if_pos hn]
        constructor
        · intro hc; exact absurd hc (by simp)
        · rintro ⟨h1, h2⟩; exact absurd hn h2
      · rw [show assignAnchors (a :: b :: rest) n =
            (if (a :: b :: rest).length = n then Except.ok (a :: b :: rest)
             else Except.error YoloError.AnchorMismatch) from rfl, if_neg hn]
        refine ⟨fun _ => ⟨?_, hn⟩, fun _ => rfl⟩
        simp only [List.length_cons]
        omega

theorem assignAnchors_ok_iff (groups : List (List ℚ)) (n : Nat) :
    (∃ out, assignAnchors groups n = Except.ok out) ↔
      (groups.length = 1 ∨ groups.length = n) := by
  match groups with
  | [g'] => exact ⟨fun _ => Or.inl rfl, fun _ => ⟨List.replicate n g', rfl⟩⟩
  | [] =>
      by_cases hn : ([] : List (List ℚ)).length = n
      · refine ⟨fun _ => Or.inr hn, fun _ => ⟨[], ?_⟩⟩
        rw [show assignAnchors ([] : List (List ℚ)) n =
            (if ([] : List (List ℚ)).length = n then Except.ok ([] : List (List ℚ))
             else Except.error YoloError.AnchorMismatch) from rfl, if_pos hn]
      · constructor
        · rintro ⟨out, hout⟩
          rw [show assignAnchors ([] : List (List ℚ)) n =
              (if ([] : List (List ℚ)).length = n then Except.ok ([] : List (List ℚ))
               else Except.error YoloError.AnchorMismatch) from rfl, if_neg hn] at hout
          exact absurd hout (by simp)
        · rintro (h | h)
          · exact absurd h (by simp)
          · exact absurd h hn
  | a :: b :: rest =>
      by_cases hn : (a :: b :: rest).length = n
      · refine ⟨fun _ => Or.inr hn, fun _ => ⟨a :: b :: rest, ?_⟩⟩
        rw [show assignAnchors (a :: b :: rest) n =
            (if (a :: b :: rest).length = n then Except.ok (a :: b :: rest)
             else Except.error YoloError.AnchorMismatch) from rfl, if_pos hn]
      · constructor
        · rintro ⟨out, hout⟩
          rw [show assignAnchors (a :: b :: rest) n =
              (if (a :: b :: rest).length = n then Except.ok (a :: b :: rest)
               else Except.error YoloError.AnchorMismatch) from rfl, if_neg hn] at hout
          exact absurd hout (by simp)
        · rintro (h | h)
          · simp only [List.length_cons] at h; omega
          · exact absurd h hn

/-- C6: for every score vector and every k ≤ length, topK returns exactly k
entries, sorted by descending score with ties broken by ascending index;
together with the dropped entries they are a permutation of the indexed
input entries, and every kept entry ranks at least as high as every dropped
entry. -/
theorem topK_spec (prob : List ℚ) (k : Nat) (hk : k ≤ prob.length) :
    (topK prob k).length = k ∧
    List.Sorted scoreIdxOrd (topK prob k) ∧
    (topK prob k ++ (sortTop prob).drop k).Perm prob.enum ∧
    ∀ p ∈ topK prob k, ∀ q ∈ (sortTop prob).drop k, scoreIdxOrd p q := by
  have hperm : (sortTop prob).Perm prob.enum := List.perm_insertionSort _ _
  have hsorted : (sortTop prob).Pairwise scoreIdxOrd := List.sorted_insertionSort _ _
  refine ⟨?_, ?_, ?_, ?_⟩
  · rw [topK, List.length_take, hperm.length_eq, List.enum_length]
    omega
  · exact hsorted.sublist (List.take_sublist k _)
  · rw [topK, List.take_append_drop]
    exact hperm
  · intro p hp q hq
    exact hsorted.rel_of_mem_take_of_mem_drop hp hq

/-- Witness for C6 at the spec's example: input [0.1, 0.9, 0.9, 0.2] with
k = 2 yields indices [1, 2], ties broken by ascending index. -/
theorem topK_spec_witness :
    (2 ≤ ([mkRat 1 10, mkRat 9 10, mkRat 9 10, mkRat 2 10] : List ℚ).length ∧
      (topK [mkRat 1 10, mkRat 9 10, mkRat 9 10, mkRat 2 10] 2).map Prod.fst = [1, 2]) ∧
    ((topK [mkRat 1 10, mkRat 9 10, mkRat 9 10, mkRat 2 10] 2).length = 2 ∧
     List.Sorted scoreIdxOrd (topK [mkRat 1 10, mkRat 9 10, mkRat 9 10, mkRat 2 10] 2) ∧
     (topK [mkRat 1 10, mkRat 9 10, mkRat 9 10, mkRat 2 10] 2 ++
        (sortTop [mkRat 1 10, mkRat 9 10, mkRat 9 10, mkRat 2 10]).drop 2).Perm
       ([mkRat 1 10, mkRat 9 10, mkRat 9 10, mkRat 2 10] : List ℚ).enum ∧
     ∀ p ∈ topK [mkRat 1 10, mkRat 9 10, mkRat 9 10, mkRat 2 10] 2,
       ∀ q ∈ (sortTop [mkRat 1 10, mkRat 9 10, mkRat 9 10, mkRat 2 10]).drop 2, scoreIdxOrd p q) :=
  ⟨⟨by decide, by decide⟩, topK_spec [mkRat 1 10, mkRat 9 10, mkRat 9 10, mkRat 2 10] 2 (by decide)⟩

/-- C9: for raw-YOLO detection, a single anchor group is shared across all
raw output layers; otherwise the number of groups must equal the number of
raw output layers, and the decoder fails with AnchorMismatch exactly when it
does not; the number of groups is the number of semicolon-separated segments
of the anchors parameter. -/
theorem anchors_assignment (groups : List (List ℚ)) (g : List ℚ) (n : Nat) (s : String) :
    assignAnchors [g] n = Except.ok (List.replicate n g) ∧
    (assignAnchors groups n = Except.error YoloError.AnchorMismatch ↔
      (groups.length ≠ 1 ∧ groups.length ≠ n)) ∧
    ((∃ out, assignAnchors groups n = Except.ok out) ↔
      (groups.length = 1 ∨ groups.length = n)) ∧
    (anchorGroups s).length = (s.splitOn ";").length :=
  ⟨rfl, assignAnchors_error_iff groups n, assignAnchors_ok_iff groups n,
   by simp [anchorGroups]⟩

theorem nmsRun_sublist (thr : ℚ) (l acc : List Detection) :
    (nmsRun thr acc l).Sublist l := by
  induction l generalizing acc with
  | nil => simp [nmsRun]
  | cons d ds ih =>
      rw [nmsRun]
      split
      · exact (ih acc).cons d
      · exact (ih (d :: acc)).cons₂ d

theorem nmsRun_not_suppressed (thr : ℚ) (l acc : List Detection) :
    (∀ d ∈ nmsRun thr acc l, ∀ e ∈ acc, suppresses thr e d = false) ∧
    (nmsRun thr acc l).Pairwise (fun e d => suppresses thr e d = false) := by
  induction l generalizing acc with
  | nil => exact ⟨by simp [nmsRun], by simp [nmsRun]⟩
  | cons d ds ih =>
      rw [nmsRun]
      split
      · exact ih acc
      · rename_i hcond
        have hnot : ∀ e ∈ acc, suppresses thr e d = false := by
          intro e he
          cases hs : suppresses thr e d with
          | false => rfl
          | true => exact absurd (List.any_eq_true.mpr ⟨e, he, hs⟩) hcond
        obtain ⟨ih1, ih2⟩ := ih (d :: acc)
        constructor
        · intro d' hd' e he
          rcases List.mem_cons.mp hd' with h | hd'
          · subst h; exact hnot e he
          · exact ih1 d' hd' e (List.mem_cons_of_mem d he)
        · refine List.pairwise_cons.mpr ⟨?_, ih2⟩
          intro d' hd'
          exact ih1 d' hd' d (List.mem_cons_self d acc)

theorem nmsRun_fixed (thr : ℚ) (l : List Detection) :
    ∀ acc : List Detection,
      l.Pairwise (fun e d => suppresses thr e d = false) →
      (∀ d ∈ l, ∀ e ∈ acc, suppresses thr e d = false) →
      nmsRun thr acc l = l := by
  induction l with
  | nil => intro acc _ _; rfl
  | cons d ds ih =>
      intro acc hpw hacc
      obtain ⟨hhead, htail⟩ := List.pairwise_cons.mp hpw
      have hcond : (acc.any fun e => suppresses thr e d) = false := by
        cases hc : acc.any fun e => suppresses thr e d with
        | false => rfl
        | true =>
            obtain ⟨e, he, hs⟩ := List.any_eq_true.mp hc
            rw [hacc d (List.mem_cons_self d ds) e he] at hs
            exact absurd hs (by simp)
      rw [nmsRun, hcond]
      rw [if_neg (by simp)]
      congr 1
      refine ih (d :: acc) htail ?_
      intro d' hd' e he
      rcases List.mem_cons.mp he with h | he
      · subst h; exact hhead d' hd'
      · exact hacc d' (List.mem_cons_of_mem d hd') e he

/-- C5: non-maximum suppression is idempotent: for every list of detections
and every IoU threshold nms/100, applying the greedy per-class suppression a
second time to its own output returns the same detections. -/
theorem nms_idempotent (nmsParam : ℚ) (dets : List Detection) :
    nms nmsParam (nms nmsParam dets) = nms nmsParam dets := by
  have hsorted0 : (List.insertionSort byScore dets).Pairwise byScore :=
    List.sorted_insertionSort byScore dets
  have hsub : (nms nmsParam dets).Sublist (List.insertionSort byScore dets) :=
    nmsRun_sublist (nmsParam / 100) (List.insertionSort byScore dets) []
  have hsorted : List.Sorted byScore (nms nmsParam dets) := hsorted0.sublist hsub
  have hpw : (nms nmsParam dets).Pairwise
      (fun e d => suppresses (nmsParam / 100) e d = false) :=
    (nmsRun_not_suppressed (nmsParam / 100) (List.insertionSort byScore dets) []).2
  show nmsRun (nmsParam / 100) [] (List.insertionSort byScore (nms nmsParam dets)) =
    nms nmsParam dets
  rw [List.Sorted.insertionSort_eq hsorted]
  refine nmsRun_fixed (nmsParam / 100) (nms nmsParam dets) [] hpw ?_
  intro d _ e he
  exact absurd he (List.not_mem_nil e)

theorem foldl_max_shift (xs : List ℝ) (a c : ℝ) :
    (xs.map (fun x => x + c)).foldl max (a + c) = xs.foldl max a + c := by
  induction xs generalizing a with
  | nil => rfl
  | cons x xs ih =>
      simp only [List.map_cons, List.foldl_cons]
      rw [max_add_add_right a x c]
      exact ih (max a x)

theorem listMax_shift (input : List ℝ) (c : ℝ) (h : input ≠ []) :
    listMax (input.map (fun x => x + c)) = listMax input + c := by
  cases input with
  | nil => exact absurd rfl h
  | cons x xs =>
      simp only [List.map_cons, listMax]
      exact foldl_max_shift xs x c

theorem sum_map_div (l : List ℝ) (c : ℝ) :
    (l.map (fun x => x / c)).sum = l.sum / c := by
  induction l with
  | nil => simp
  | cons x xs ih => simp [ih, add_div]

theorem expShift_sum_pos (fac : ℝ) (input : List ℝ) (h : input ≠ []) :
    0 < (expShift fac input).sum := by
  apply List.sum_pos
  · intro y hy
    obtain ⟨x, _, rfl⟩ := List.mem_map.mp hy
    exact Real.exp_pos _
  · simp only [expShift, ne_eq, List.map_eq_nil_iff]
    exact h

theorem expShift_shift (fac c : ℝ) (input : List ℝ) (h : input ≠ []) :
    expShift fac (input.map (fun x => x + c)) = expShift fac input := by
  rw [expShift, expShift, listMax_shift input c h, List.map_map]
  apply List.map_congr_left
  intro x _
  simp only [Function.comp_apply]
  congr 1
  ring

/-- C7: in the exact real model, for every nonempty input vector the softmax
output sums to exactly 1 (hence within every ε), and softmax is invariant
under adding the same constant to every input (the stable formulation
subtracts the maximum before exponentiating). -/
theorem softmax_spec (fac c : ℝ) (input : List ℝ) (h : input ≠ []) :
    (softmax fac input).sum = 1 ∧
    softmax fac (input.map (fun x => x + c)) = softmax fac input := by
  constructor
  · rw [softmax, sum_map_div]
    exact div_self (ne_of_gt (expShift_sum_pos fac input h))
  · rw [softmax, softmax, expShift_shift fac c input h]

/-- Witness for C7 at a concrete input: the softmax of [0] sums to 1 and is
invariant under shifting the input by 5. -/
theorem softmax_spec_witness :
    (([0] : List ℝ) ≠ []) ∧
    ((softmax 1 [0]).sum = 1 ∧
     softmax 1 (([0] : List ℝ).map (fun x => x + 5)) = softmax 1 [0]) :=
  ⟨List.cons_ne_nil 0 [], softmax_spec 1 5 [0] (List.cons_ne_nil 0 [])⟩

end dnn
end jevois
